import Mathlib

/-
Verification development for the QuantLib multi-path generator
(ql/MonteCarlo/multipathgenerator.hpp, class MultiPathGenerator<SG>).

The embedding is parametric in the scalar type `K` (a field), standing for
the C++ `double`; the external math-library functions `QL_SQRT` and `QL_EXP`
are passed explicitly as function arguments `sq` and `ex`, and the external
covariance factorization `matrixSqrt` is a function argument `msqrt`.
QuantLib `Array` values are `List K`; `Array`/`Matrix` element accesses made
by the generator are Option-returning (an out-of-range access yields `none`,
totalizing the C++ undefined behaviour), and the fallible operations return
`Option`.
-/

namespace QLMC

/-- Modelled from the spec: `Sample<T>` (ql/MonteCarlo/sample.hpp is not part
of the excerpt) — a drawn value paired with its importance-sampling weight. -/
structure Sample (K A : Type) where
  value : A
  weight : K

/-- Modelled from the spec: the external random-sequence source `SG`
(a template parameter of `MultiPathGenerator`).  It declares a fixed
dimension and reproducibly emits one weighted draw vector of exactly that
dimension per call; the call counter is threaded explicitly as the state. -/
structure SG (K : Type) where
  dimension : Nat
  seq : Nat → Sample K (List K)
  hdim : ∀ n, (seq n).value.length = dimension

/-- Modelled from the spec: the external per-asset diffusion model
(ql/diffusionprocess.hpp is not part of the excerpt): initial level `x0`,
instantaneous drift `drift(t, x)` and variance `variance(t, x, dt)`. -/
structure DiffusionProcess (K : Type) where
  x0 : K
  drift : K → K → K
  variance : K → K → K → K

/-- Modelled from the spec: QuantLib `Matrix` — rectangular storage with a
uniform column count (`rows_`/`columns_` fields in the C++ class). -/
structure QLMatrix (K : Type) where
  data : List (List K)
  cols : Nat
  huni : ∀ r ∈ data, r.length = cols

/-- Row count of a matrix (`Matrix::rows()`). -/
def QLMatrix.rows {K : Type} (M : QLMatrix K) : Nat := M.data.length

/-- Checked element access `M[r][c]`; `none` totalizes the out-of-range case. -/
def QLMatrix.entry {K : Type} (M : QLMatrix K) (r c : Nat) : Option K :=
  (M.data.get? r).bind fun row => row.get? c

/-- Modelled from the spec: one per-asset path of the `MultiPath`
(ql/MonteCarlo/multipath.hpp is not part of the excerpt) — the per-step
drift and diffusion increment arrays. -/
structure Path (K : Type) where
  drift : List K
  diffusion : List K

/-- Number of steps of a path (`Path::size()`), the length of its increment
arrays. -/
def Path.size {K : Type} (p : Path K) : Nat := p.drift.length

/-- Modelled from the spec: `MultiPath` — one path per asset, all sharing a
single time grid.  The grid is an ordered list of time points
`t[0], ..., t[n]`. -/
structure MultiPath (K : Type) where
  grid : List K
  paths : List (Path K)

/-- Modelled from the spec: `TimeGrid::operator[]` — a time-grid point
lookup (in-range by the external TimeGrid contract). -/
def gridAt {K : Type} [Field K] (grid : List K) (i : Nat) : K := grid.getD i 0

/-- Modelled from the spec: `TimeGrid::dt(i) = t[i+1] - t[i]`. -/
def gridDt {K : Type} [Field K] (grid : List K) (i : Nat) : K :=
  gridAt grid (i + 1) - gridAt grid i

/-- The immutable configuration of `MultiPathGenerator<SG>`: the fields
`diffusionProcs_`, `numAssets_`, `sqrtCovariance_` and `generator_`. -/
structure MultiPathGenerator (K : Type) where
  diffusionProcs : List (DiffusionProcess K)
  numAssets : Nat
  sqrtCovariance : QLMatrix K
  generator : SG K

/-- The mutable state of a generator: the buffer `next_` (a weighted
`MultiPath`, overwritten on every call) and the position of the stateful
random source, as the number of draws consumed so far. -/
structure GenState (K : Type) where
  buf : Sample K (MultiPath K)
  count : Nat

/-- Dot product of two equal-length vectors (row-times-vector inside the
QuantLib `Matrix * Array` product). -/
def dot {K : Type} [Field K] (xs ys : List K) : K :=
  (List.zipWith (fun a b => a * b) xs ys).sum

/-- Modelled from the spec: the QuantLib `Matrix * Array` product
(`temp = sqrtCovariance_ * temp`); defined when the column count matches the
vector length, one dot product per row. -/
def mulVec {K : Type} [Field K] (M : QLMatrix K) (v : List K) : Option (List K) :=
  if M.cols = v.length then some (M.data.map fun row => dot row v) else none

/-- The correlated step transform of `MultiPathGenerator::next` (lines
134-138): multiply the draw block by `sqrtCovariance_`, then rescale the
components at the fixed indices 0 and 1 by the root of the sum of squares of
the entries `[k][0]` and `[k][1]` of rows 0 and 1.  All element reads are
checked. -/
def correlatedStep {K : Type} [Field K] (sq : K → K) (S : QLMatrix K)
    (draw : List K) : Option (List K) :=
  (mulVec S draw).bind fun temp =>
  (S.entry 0 0).bind fun s00 =>
  (S.entry 0 1).bind fun s01 =>
  (S.entry 1 0).bind fun s10 =>
  (S.entry 1 1).bind fun s11 =>
  (temp.get? 0).bind fun t0 =>
  (temp.get? 1).bind fun t1 =>
  some ((temp.set 0 (t0 / sq (s00 * s00 + s01 * s01))).set 1
          (t1 / sq (s10 * s10 + s11 * s11)))

/-- Extraction of block `i` of the draw vector
(`std::copy(sequence_.value.begin()+offset, ...+offset+numAssets, temp.begin())`);
checked against the draw vector's length. -/
def blockOf {K : Type} (seqv : List K) (offset n : Nat) : Option (List K) :=
  if offset + n ≤ seqv.length then some ((seqv.drop offset).take n) else none

/-- Initialization of the working asset levels
(`asset[j] = diffusionProcs_[j]->x0()` for `j < numAssets_`); the process
lookup is checked. -/
def assetInit {K : Type} (procs : List (DiffusionProcess K)) (n : Nat) :
    Option (List K) :=
  (List.range n).mapM fun j => (procs.get? j).map fun p => p.x0

/-- Checked write `next_.value[j].drift()[i] = x`. -/
def setDrift {K : Type} (mp : MultiPath K) (j i : Nat) (x : K) :
    Option (MultiPath K) :=
  (mp.paths.get? j).bind fun p =>
    if i < p.drift.length then
      some { mp with paths := mp.paths.set j { p with drift := p.drift.set i x } }
    else none

/-- Checked write `next_.value[j].diffusion()[i] = x`. -/
def setDiffusion {K : Type} (mp : MultiPath K) (j i : Nat) (x : K) :
    Option (MultiPath K) :=
  (mp.paths.get? j).bind fun p =>
    if i < p.diffusion.length then
      some { mp with paths := mp.paths.set j { p with diffusion := p.diffusion.set i x } }
    else none

/-- The per-asset body of the step loop of `next` (lines 139-144): write the
drift increment `dt * drift(t, asset[j])`, the diffusion increment
`-temp[j] * sqrt(variance(t, asset[j], dt))`, and update the working level
multiplicatively by `exp` of their sum. -/
def assetStep {K : Type} [Field K] (sq ex : K → K)
    (procs : List (DiffusionProcess K)) (t dtv : K) (temp : List K) (i : Nat)
    (st : MultiPath K × List K) (j : Nat) : Option (MultiPath K × List K) :=
  (st.2.get? j).bind fun aj =>
  (procs.get? j).bind fun pj =>
  let dr := dtv * pj.drift t aj
  (setDrift st.1 j i dr).bind fun mp1 =>
  (temp.get? j).bind fun tj =>
  let df := -tj * sq (pj.variance t aj dtv)
  (setDiffusion mp1 j i df).bind fun mp2 =>
  some (mp2, st.2.set j (aj * ex (dr + df)))

/-- One iteration of the outer time-step loop of `next` (lines 124-145):
fix `t = timeGrid[i+1]` and `dt = timeGrid.dt(i)`, extract block `i` of the
draw, apply the correlated step transform, then run the per-asset loop. -/
def stepOne {K : Type} [Field K] (sq ex : K → K) (S : QLMatrix K)
    (procs : List (DiffusionProcess K)) (numAssets : Nat) (grid : List K)
    (seqv : List K) (st : MultiPath K × List K) (i : Nat) :
    Option (MultiPath K × List K) :=
  let t := gridAt grid (i + 1)
  let dtv := gridDt grid i
  (blockOf seqv (i * numAssets) numAssets).bind fun b =>
  (correlatedStep sq S b).bind fun temp =>
  (List.range numAssets).foldlM (assetStep sq ex procs t dtv temp i) st

/-- The first `m` iterations of the time-step loop of `next`. -/
def runSteps {K : Type} [Field K] (sq ex : K → K) (S : QLMatrix K)
    (procs : List (DiffusionProcess K)) (numAssets : Nat) (grid : List K)
    (seqv : List K) (st : MultiPath K × List K) (m : Nat) :
    Option (MultiPath K × List K) :=
  (List.range m).foldlM (stepOne sq ex S procs numAssets grid seqv) st

/-- `MultiPathGenerator::next` (lines 106-148): draw the next weighted
sequence, set the weight, initialize the asset levels from the models'
initial values, and run the step loop over `next_.value[0].size()` steps,
overwriting the buffer in place.  A `none` totalizes any out-of-range
access of the C++ code. -/
def next {K : Type} [Field K] (sq ex : K → K) (g : MultiPathGenerator K)
    (st : GenState K) : Option (GenState K) :=
  let sequence := g.generator.seq st.count
  (assetInit g.diffusionProcs g.numAssets).bind fun asset =>
  (st.buf.value.paths.get? 0).bind fun p0 =>
  let timeGrid := st.buf.value.grid
  (runSteps sq ex g.sqrtCovariance g.diffusionProcs g.numAssets
      timeGrid sequence.value (st.buf.value, asset) p0.size).bind fun res =>
  some { buf := { value := res.1, weight := sequence.weight }, count := st.count + 1 }

/-- `MultiPathGenerator::antithetic` (lines 151-159): the body is exactly
`return next();`. -/
def antithetic {K : Type} [Field K] (sq ex : K → K) (g : MultiPathGenerator K)
    (st : GenState K) : Option (GenState K) :=
  next sq ex g st

/-- The inner prefill loop of the constructor (lines 97-100): for each step
`i`, write `drifts[j] * timeGrid.dt(i)` into the drift array of one path. -/
def prefillPath {K : Type} [Field K] (d : K) (grid : List K) (p : Path K) :
    Path K :=
  let filled :=
    (List.range (grid.length - 1)).foldl
      (fun arr i => arr.set i (d * gridDt grid i)) p.drift
  { p with drift := filled }

/-- The outer prefill loop of the constructor (lines 96-101), over assets. -/
def prefillAll {K : Type} [Field K] (drifts : List K) (grid : List K) (n : Nat)
    (paths : List (Path K)) : List (Path K) :=
  (List.range n).foldl
    (fun ps j => ps.set j
      (prefillPath (drifts.getD j 0) grid (ps.getD j { drift := [], diffusion := [] })))
    paths

/-- A `MultiPath` as freshly allocated by the constructor's initializer list
(`MultiPath(covariance.rows(), times)`): one zero-initialized path of
`times.size() - 1` steps per asset, sharing the grid.  Modelled from the
spec (multipath.hpp is not part of the excerpt). -/
def freshMultiPath {K : Type} [Field K] (n : Nat) (times : List K) : MultiPath K :=
  { grid := times
    paths := List.replicate n
      { drift := List.replicate (times.length - 1) 0
        diffusion := List.replicate (times.length - 1) 0 } }

/-- The `MultiPathGenerator` constructor (lines 66-102): store the inputs,
factor the covariance once via the external `msqrt`, allocate the buffer
with weight 1, run the four `QL_REQUIRE` validations in source order
(failure is `none`), and prefill the drift arrays with
`drifts[j] * timeGrid.dt(i)`. -/
def mkMultiPathGenerator {K : Type} [Field K] (msqrt : QLMatrix K → QLMatrix K)
    (diffusionProcs : List (DiffusionProcess K)) (drifts : List K)
    (covariance : QLMatrix K) (times : List K) (generator : SG K) :
    Option (MultiPathGenerator K × GenState K) :=
  let numAssets := covariance.rows
  let S := msqrt covariance
  let mp0 : MultiPath K := freshMultiPath numAssets times
  if generator.dimension ≠ numAssets * (times.length - 1) then none
  else if drifts.length ≠ numAssets then none
  else if S.cols ≠ numAssets then none
  else if ¬ 1 < times.length then none
  else some
    ( { diffusionProcs := diffusionProcs, numAssets := numAssets
        sqrtCovariance := S, generator := generator },
      { buf := { value := { mp0 with paths := prefillAll drifts times numAssets mp0.paths }
                 weight := 1 }
        count := 0 } )

/-- Drift increment `j`,`i` of a multi-path, checked. -/
def MultiPath.driftAt {K : Type} (mp : MultiPath K) (j i : Nat) : Option K :=
  (mp.paths.get? j).bind fun p => p.drift.get? i

/-- Diffusion increment `j`,`i` of a multi-path, checked. -/
def MultiPath.diffusionAt {K : Type} (mp : MultiPath K) (j i : Nat) : Option K :=
  (mp.paths.get? j).bind fun p => p.diffusion.get? i

/-- Drift increment `j`,`i` of the buffered multi-path, checked. -/
def driftEntry {K : Type} (st : GenState K) (j i : Nat) : Option K :=
  st.buf.value.driftAt j i

/-- Diffusion increment `j`,`i` of the buffered multi-path, checked. -/
def diffusionEntry {K : Type} (st : GenState K) (j i : Nat) : Option K :=
  st.buf.value.diffusionAt j i

/-- Structural well-formedness of a generator state: one path per asset and
increment arrays of length `numSteps` everywhere (the invariant of §3 of the
data model, established by the constructor). -/
def stateWF {K : Type} (numAssets numSteps : Nat) (st : GenState K) : Prop :=
  st.buf.value.paths.length = numAssets ∧
  ∀ j p, st.buf.value.paths.get? j = some p →
    p.drift.length = numSteps ∧ p.diffusion.length = numSteps

/-- Iterated calls to `next`, threading the mutable state. -/
def nextIterate {K : Type} [Field K] (sq ex : K → K) (g : MultiPathGenerator K) :
    GenState K → Nat → Option (GenState K)
  | st, 0 => some st
  | st, k + 1 => (next sq ex g st).bind fun st' => nextIterate sq ex g st' k

/-- The per-step, per-asset equations of one successful call to `next`
taking `st` to `st'`: the asset levels start at the models' initial values,
the level `aj` of asset `j` entering step `i` is the one produced by the
first `i` loop iterations, block `i` of the draw goes through the
correlated step transform, and the stored increments and the multiplicative
level update are exactly the formulas of lines 140-143. -/
def nextStepEquations {K : Type} [Field K] (sq ex : K → K)
    (g : MultiPathGenerator K) (st st' : GenState K) (i j : Nat) : Prop :=
  ∃ asset0 pj ci aj b temp tj di,
    assetInit g.diffusionProcs g.numAssets = some asset0 ∧
    g.diffusionProcs.get? j = some pj ∧
    asset0.get? j = some pj.x0 ∧
    runSteps sq ex g.sqrtCovariance g.diffusionProcs g.numAssets
      st.buf.value.grid (g.generator.seq st.count).value
      (st.buf.value, asset0) i = some ci ∧
    ci.2.get? j = some aj ∧
    blockOf (g.generator.seq st.count).value (i * g.numAssets) g.numAssets = some b ∧
    correlatedStep sq g.sqrtCovariance b = some temp ∧
    temp.get? j = some tj ∧
    driftEntry st' j i
      = some (gridDt st.buf.value.grid i
          * pj.drift (gridAt st.buf.value.grid (i + 1)) aj) ∧
    diffusionEntry st' j i
      = some (-tj * sq (pj.variance (gridAt st.buf.value.grid (i + 1)) aj
          (gridDt st.buf.value.grid i))) ∧
    runSteps sq ex g.sqrtCovariance g.diffusionProcs g.numAssets
      st.buf.value.grid (g.generator.seq st.count).value
      (st.buf.value, asset0) (i + 1) = some di ∧
    di.2.get? j
      = some (aj * ex (gridDt st.buf.value.grid i
            * pj.drift (gridAt st.buf.value.grid (i + 1)) aj
          + -tj * sq (pj.variance (gridAt st.buf.value.grid (i + 1)) aj
              (gridDt st.buf.value.grid i))))

/-- Sum of squares of a row (the square of its Euclidean norm). -/
def rowNormSq {K : Type} [Field K] (row : List K) : K :=
  (row.map fun x => x * x).sum

/-- The sequence of path samples produced by `k` successive calls to `next`;
a failed call contributes `none` for itself and every later call. -/
def runPaths {K : Type} [Field K] (sq ex : K → K) (g : MultiPathGenerator K) :
    GenState K → Nat → List (Option (Sample K (MultiPath K)))
  | _, 0 => []
  | st, k + 1 =>
    match next sq ex g st with
    | some st' => some st'.buf :: runPaths sq ex g st' k
    | none => List.replicate (k + 1) none

/-!
Concrete instances over `K := ℚ`, used to witness the theorems below on
explicit inputs.  `sqrtQ` and `expQ` are stand-ins for the external math
functions `QL_SQRT`/`QL_EXP`, chosen to agree with the true square root on
every argument they are applied to in these instances.
-/

/-- Stand-in for `QL_SQRT` on the rationals; agrees with the real square
root at 0, 1 and 4, the only arguments arising in the concrete runs. -/
def sqrtQ : ℚ → ℚ := fun x => if x = 0 then 0 else if x = 1 then 1 else if x = 4 then 2 else 37

/-- Stand-in for `QL_EXP` on the rationals. -/
def expQ : ℚ → ℚ := fun x => 1 + x

/-- A deterministic constant random source of a given dimension. -/
def constSG (v : List ℚ) : SG ℚ :=
  { dimension := v.length, seq := fun _ => { value := v, weight := 1 }, hdim := fun _ => rfl }

/-- A simple diffusion model: initial level 1, zero drift, unit variance. -/
def procU : DiffusionProcess ℚ :=
  { x0 := 1, drift := fun _ _ => 0, variance := fun _ _ _ => 1 }

/-- The 2-by-2 identity as a correlation factor. -/
def id2 : QLMatrix ℚ := { data := [[1, 0], [0, 1]], cols := 2, huni := by decide }

/-- Construction of a 2-asset generator over the grid `[0, 1]`. -/
def mk2 : Option (MultiPathGenerator ℚ × GenState ℚ) :=
  mkMultiPathGenerator (fun _ => id2) [procU, procU] [0, 0] id2 [0, 1] (constSG [1, 1])

/-- The validly constructed 2-asset generator. -/
def gst2 : MultiPathGenerator ℚ × GenState ℚ := mk2.get (by decide)

/-- The state after one call to `next` on the 2-asset instance. -/
def stNext2 : GenState ℚ := (next sqrtQ expQ gst2.1 gst2.2).get (by decide)

/-- The state after a second call to `next` on the 2-asset instance. -/
def stNext2b : GenState ℚ := (next sqrtQ expQ gst2.1 stNext2).get (by decide)

/-- The 1-by-1 identity matrix. -/
def id1 : QLMatrix ℚ := { data := [[1]], cols := 1, huni := by decide }

/-- Construction of a 1-asset generator over the grid `[0, 1]`. -/
def mk1 : Option (MultiPathGenerator ℚ × GenState ℚ) :=
  mkMultiPathGenerator (fun _ => id1) [procU] [0] id1 [0, 1] (constSG [1])

/-- The validly constructed 1-asset generator. -/
def gst1 : MultiPathGenerator ℚ × GenState ℚ := mk1.get (by decide)

/-- A 3-by-3 correlation factor whose third row is `[0, 0, 2]`, of Euclidean
norm 2. -/
def fac3 : QLMatrix ℚ :=
  { data := [[1, 0, 0], [0, 1, 0], [0, 0, 2]], cols := 3, huni := by decide }

/-- Construction of a 3-asset generator whose factorization returns `fac3`
and whose source draws `[0, 0, 1]`. -/
def mk3 : Option (MultiPathGenerator ℚ × GenState ℚ) :=
  mkMultiPathGenerator (fun _ => fac3) [procU, procU, procU] [0, 0, 0] fac3 [0, 1]
    (constSG [0, 0, 1])

/-- The validly constructed 3-asset generator. -/
def gst3 : MultiPathGenerator ℚ × GenState ℚ := mk3.get (by decide)

/-- The state after one call to `next` on the 3-asset instance. -/
def stNext3 : GenState ℚ := (next sqrtQ expQ gst3.1 gst3.2).get (by decide)

/-- A 2-by-2 correlation factor whose first row is identically zero (a
degenerate, fully deterministic first asset). -/
def facZeroRow : QLMatrix ℚ := { data := [[0, 0], [0, 1]], cols := 2, huni := by decide }

/-- Construction of a 2-asset generator whose correlation factor has a zero
first row. -/
def mkZ : Option (MultiPathGenerator ℚ × GenState ℚ) :=
  mkMultiPathGenerator (fun _ => facZeroRow) [procU, procU] [0, 0] facZeroRow [0, 1]
    (constSG [1, 1])

/-- The validly constructed zero-row-factor generator. -/
def gstZ : MultiPathGenerator ℚ × GenState ℚ := mkZ.get (by decide)

/-! Helper lemmas on Option-monadic folds and list updates. -/

theorem get_eq_some {α : Type} (o : Option α) (h : o.isSome = true) :
    o = some (o.get h) :=
  (Option.some_get h).symm

theorem foldlM_option_append {α β : Type} (l1 l2 : List α) (f : β → α → Option β)
    (a : β) :
    (l1 ++ l2).foldlM f a = (l1.foldlM f a).bind fun b => l2.foldlM f b := by
  induction l1 generalizing a with
  | nil => simp
  | cons x l ih =>
    simp only [List.cons_append, List.foldlM_cons]
    cases f a x with
    | none => simp
    | some b => simp [ih]

theorem foldlM_option_range_succ {β : Type} (n : Nat) (f : β → Nat → Option β)
    (a : β) :
    (List.range (n + 1)).foldlM f a
      = ((List.range n).foldlM f a).bind fun b => f b n := by
  rw [List.range_succ, foldlM_option_append]
  cases (List.range n).foldlM f a <;> simp

theorem foldlM_option_invariant {α β : Type} (f : β → α → Option β) (P : β → Prop) :
    ∀ (l : List α) (a : β), P a →
      (∀ b x, x ∈ l → P b → ∃ b', f b x = some b' ∧ P b') →
      ∃ b, l.foldlM f a = some b ∧ P b := by
  intro l
  induction l with
  | nil => intro a ha _; exact ⟨a, rfl, ha⟩
  | cons x l ih =>
    intro a ha hstep
    obtain ⟨b, hb, hPb⟩ := hstep a x (List.mem_cons_self x l) ha
    obtain ⟨c, hc, hPc⟩ := ih b hPb (fun b' y hy => hstep b' y (List.mem_cons_of_mem x hy))
    exact ⟨c, by simp [List.foldlM_cons, hb, hc], hPc⟩

theorem foldlM_option_range_prefix {β : Type} (f : β → Nat → Option β) :
    ∀ (n m : Nat), m ≤ n → ∀ (a b : β),
      (List.range n).foldlM f a = some b →
      ∃ c, (List.range m).foldlM f a = some c := by
  intro n
  induction n with
  | zero => intro m hm a b h; exact ⟨b, by simpa [Nat.le_zero.mp hm] using h⟩
  | succ k ih =>
    intro m hm a b h
    rw [foldlM_option_range_succ] at h
    rcases Option.bind_eq_some.mp h with ⟨c, hc, _⟩
    rcases Nat.lt_or_ge m (k + 1) with hlt | hge
    · exact ih m (Nat.lt_succ_iff.mp hlt) a c hc
    · have hmk : m = k + 1 := Nat.le_antisymm hm hge
      subst hmk
      exact ⟨b, by rw [foldlM_option_range_succ]; exact h⟩

theorem foldlM_option_range_split {β : Type} (f : β → Nat → Option β)
    (n i : Nat) (hi : i < n) (a b : β)
    (h : (List.range n).foldlM f a = some b) :
    ∃ c d, (List.range i).foldlM f a = some c ∧ f c i = some d ∧
      (List.range' (i + 1) (n - i - 1)).foldlM f d = some b := by
  have hsplit : List.range n = List.range i ++ (i :: List.range' (i + 1) (n - i - 1)) := by
    have h1 : List.range n = List.range' 0 n := List.range_eq_range' n
    have h2 : List.range i = List.range' 0 i := List.range_eq_range' i
    have h3 : List.range' 0 i ++ List.range' (0 + i) (n - i) = List.range' 0 (i + (n - i)) := by
      simpa [Nat.add_comm] using List.range'_append 0 i (n - i) 1
    have h4 : i + (n - i) = n := Nat.add_sub_cancel' (Nat.le_of_lt hi)
    have h5 : List.range' i (n - i) = i :: List.range' (i + 1) (n - i - 1) := by
      have : n - i = (n - i - 1) + 1 := by omega
      rw [this]
      simpa using List.range'_succ i (n - i - 1) 1
    rw [h1, h2, ← h4, ← h3]
    simp [h5]
  rw [hsplit, foldlM_option_append] at h
  rcases Option.bind_eq_some.mp h with ⟨c, hc, hrest⟩
  rw [List.foldlM_cons] at hrest
  rcases Option.bind_eq_some.mp hrest with ⟨d, hd, htail⟩
  exact ⟨c, d, hc, hd, htail⟩

theorem foldl_set_range_length {α : Type} (f : Nat → α) :
    ∀ (n : Nat) (arr : List α),
      ((List.range n).foldl (fun a i => a.set i (f i)) arr).length = arr.length := by
  intro n
  induction n with
  | zero => intro arr; rfl
  | succ k ih =>
    intro arr
    rw [List.range_succ, List.foldl_append]
    simp [ih]

theorem foldl_set_range_get {α : Type} (f : Nat → α) :
    ∀ (n : Nat) (arr : List α) (i : Nat), i < n → i < arr.length →
      ((List.range n).foldl (fun a j => a.set j (f j)) arr).get? i = some (f i) := by
  intro n
  induction n with
  | zero => intro arr i hi; omega
  | succ k ih =>
    intro arr i hi hlen
    rw [List.range_succ, List.foldl_append]
    simp only [List.foldl_cons, List.foldl_nil]
    rcases Nat.lt_or_ge i k with hik | hik
    · rw [List.get?_eq_getElem?, List.getElem?_set_ne (by omega)]
      rw [← List.get?_eq_getElem?]
      exact ih arr i hik hlen
    · have hie : i = k := by omega
      subst hie
      rw [List.get?_eq_getElem?,
        List.getElem?_set_eq_of_lt (f i) (by rw [foldl_set_range_length]; omega)]

theorem get?_some_lt {α : Type} {l : List α} {n : Nat} {a : α}
    (h : l.get? n = some a) : n < l.length :=
  (List.getElem?_eq_some.mp (List.get?_eq_getElem? l n ▸ h)).1

theorem get?_exists_of_lt {α : Type} {l : List α} {n : Nat} (h : n < l.length) :
    ∃ a, l.get? n = some a := by
  rw [List.get?_eq_getElem?]
  exact ⟨l[n], List.getElem?_eq_getElem h⟩

theorem foldlM_option_pres {α β : Type} (f : β → α → Option β) (R : β → β → Prop)
    (hrefl : ∀ b, R b b) (htrans : ∀ a b c, R a b → R b c → R a c) :
    ∀ (l : List α) (a b : β),
      (∀ c x c', x ∈ l → f c x = some c' → R c c') →
      l.foldlM f a = some b → R a b := by
  intro l
  induction l with
  | nil =>
    intro a b _ h
    simp only [List.foldlM_nil, Option.pure_def, Option.some.injEq] at h
    exact h ▸ hrefl a
  | cons x l ih =>
    intro a b hstep h
    rw [List.foldlM_cons] at h
    rcases Option.bind_eq_some.mp h with ⟨c, hc, hrest⟩
    exact htrans _ _ _ (hstep a x c (List.mem_cons_self x l) hc)
      (ih c b (fun d y d' hy => hstep d y d' (List.mem_cons_of_mem x hy)) hrest)

theorem mapM_range_some {α : Type} (f : Nat → Option α) :
    ∀ n : Nat, (∀ j, j < n → (f j).isSome = true) →
      ∃ l, (List.range n).mapM f = some l ∧ l.length = n ∧
        ∀ j, j < n → l.get? j = f j := by
  intro n
  induction n with
  | zero => exact fun _ => ⟨[], rfl, rfl, fun j hj => absurd hj (by omega)⟩
  | succ k ih =>
    intro h
    obtain ⟨l, hl, hlen, hget⟩ := ih (fun j hj => h j (by omega))
    obtain ⟨a, ha⟩ := Option.isSome_iff_exists.mp (h k (by omega))
    refine ⟨l ++ [a], ?_, by simp [hlen], ?_⟩
    · rw [List.range_succ, List.mapM_append, hl]
      simp [List.mapM.loop, ha]
    · intro j hj
      rcases Nat.lt_or_ge j k with hjk | hjk
      · rw [List.get?_eq_getElem?, List.getElem?_append_left (by omega),
          ← List.get?_eq_getElem?]
        exact hget j hjk
      · have hje : j = k := by omega
        subst hje
        rw [ha, List.get?_eq_getElem?, ← hlen, List.getElem?_concat_length]

theorem mapM_range_get {α : Type} (f : Nat → Option α) :
    ∀ (n : Nat) (l : List α), (List.range n).mapM f = some l →
      l.length = n ∧ ∀ j, j < n → l.get? j = f j := by
  intro n
  induction n with
  | zero =>
    intro l h
    simp only [List.range_zero, List.mapM_nil, Option.pure_def, Option.some.injEq] at h
    exact ⟨h ▸ rfl, fun j hj => absurd hj (by omega)⟩
  | succ k ih =>
    intro l h
    rw [List.range_succ, List.mapM_append] at h
    have h' : ((List.range k).mapM f).bind
        (fun xs => ([k].mapM f).bind fun ys => some (xs ++ ys)) = some l := by
      rw [← h]; rfl
    rcases Option.bind_eq_some.mp h' with ⟨xs, hxs, h2⟩
    rcases Option.bind_eq_some.mp h2 with ⟨ys, hys, h3⟩
    have hys' : (f k).bind (fun a => some [a]) = some ys := by
      rw [← hys]; rfl
    rcases Option.bind_eq_some.mp hys' with ⟨a, ha, h4⟩
    obtain ⟨hxlen, hxget⟩ := ih xs hxs
    simp only [Option.some.injEq] at h3 h4
    subst h4
    subst h3
    refine ⟨by simp [hxlen], ?_⟩
    intro j hj
    rcases Nat.lt_or_ge j k with hjk | hjk
    · rw [List.get?_eq_getElem?, List.getElem?_append_left (by omega),
        ← List.get?_eq_getElem?]
      exact hxget j hjk
    · have hje : j = k := by omega
      subst hje
      rw [ha, List.get?_eq_getElem?, ← hxlen, List.getElem?_concat_length]

/-! Characterization of the per-asset step body. -/

theorem assetStep_eq_some {K : Type} [Field K] {sq ex : K → K}
    {procs : List (DiffusionProcess K)} {t dtv : K} {temp : List K} {i : Nat}
    {st st' : MultiPath K × List K} {j : Nat}
    (h : assetStep sq ex procs t dtv temp i st j = some st') :
    ∃ aj pj tj p,
      st.2.get? j = some aj ∧
      procs.get? j = some pj ∧
      temp.get? j = some tj ∧
      st.1.paths.get? j = some p ∧
      i < p.drift.length ∧ i < p.diffusion.length ∧
      st' = ({ grid := st.1.grid
               paths := st.1.paths.set j
                 { drift := p.drift.set i (dtv * pj.drift t aj)
                   diffusion := p.diffusion.set i
                     (-tj * sq (pj.variance t aj dtv)) } },
             st.2.set j (aj * ex (dtv * pj.drift t aj
               + -tj * sq (pj.variance t aj dtv)))) := by
  simp only [assetStep] at h
  rcases Option.bind_eq_some.mp h with ⟨aj, haj, h⟩
  rcases Option.bind_eq_some.mp h with ⟨pj, hpj, h⟩
  rcases Option.bind_eq_some.mp h with ⟨mp1, hmp1, h⟩
  rcases Option.bind_eq_some.mp h with ⟨tj, htj, h⟩
  rcases Option.bind_eq_some.mp h with ⟨mp2, hmp2, h⟩
  simp only [Option.some.injEq] at h
  simp only [setDrift] at hmp1
  rcases Option.bind_eq_some.mp hmp1 with ⟨p, hp, hmp1⟩
  split_ifs at hmp1 with hdr
  simp only [Option.some.injEq] at hmp1
  have hjlen : j < st.1.paths.length := get?_some_lt hp
  simp only [setDiffusion, ← hmp1] at hmp2
  rw [List.get?_eq_getElem?, List.getElem?_set_eq_of_lt _ (by simpa using hjlen),
    Option.some_bind] at hmp2
  split_ifs at hmp2 with hdf
  simp only [Option.some.injEq] at hmp2
  refine ⟨aj, pj, tj, p, haj, hpj, htj, hp, hdr, by simpa using hdf, ?_⟩
  rw [← h, ← hmp2]
  simp [List.set_set]

theorem assetStep_some {K : Type} [Field K] (sq ex : K → K)
    (procs : List (DiffusionProcess K)) (t dtv : K) (temp : List K) (i : Nat)
    (st : MultiPath K × List K) (j : Nat)
    {aj : K} {pj : DiffusionProcess K} {tj : K} {p : Path K}
    (haj : st.2.get? j = some aj)
    (hpj : procs.get? j = some pj)
    (htj : temp.get? j = some tj)
    (hp : st.1.paths.get? j = some p)
    (hdr : i < p.drift.length) (hdf : i < p.diffusion.length) :
    assetStep sq ex procs t dtv temp i st j = some
      ({ grid := st.1.grid
         paths := st.1.paths.set j
           { drift := p.drift.set i (dtv * pj.drift t aj)
             diffusion := p.diffusion.set i
               (-tj * sq (pj.variance t aj dtv)) } },
       st.2.set j (aj * ex (dtv * pj.drift t aj
         + -tj * sq (pj.variance t aj dtv)))) := by
  have hjlen : j < st.1.paths.length := get?_some_lt hp
  simp only [assetStep, haj, Option.some_bind, hpj]
  simp only [setDrift, hp, Option.some_bind, if_pos hdr]
  simp only [htj, Option.some_bind]
  simp only [setDiffusion]
  rw [List.get?_eq_getElem?, List.getElem?_set_eq_of_lt _ (by simpa using hjlen),
    Option.some_bind]
  rw [if_pos (show i < p.diffusion.length from hdf)]
  simp [List.set_set]

theorem assetStep_pres_other {K : Type} [Field K] {sq ex : K → K}
    {procs : List (DiffusionProcess K)} {t dtv : K} {temp : List K} {i : Nat}
    {st st' : MultiPath K × List K} {x : Nat}
    (h : assetStep sq ex procs t dtv temp i st x = some st') :
    ∀ j, j ≠ x →
      st'.1.paths.get? j = st.1.paths.get? j ∧ st'.2.get? j = st.2.get? j := by
  obtain ⟨aj, pj, tj, p, -, -, -, -, -, -, hst'⟩ := assetStep_eq_some h
  subst hst'
  intro j hj
  constructor <;>
    rw [List.get?_eq_getElem?, List.getElem?_set_ne (by omega), ← List.get?_eq_getElem?]

theorem assetStep_pres_col {K : Type} [Field K] {sq ex : K → K}
    {procs : List (DiffusionProcess K)} {t dtv : K} {temp : List K} {i : Nat}
    {st st' : MultiPath K × List K} {x : Nat}
    (h : assetStep sq ex procs t dtv temp i st x = some st') :
    ∀ j i', i' ≠ i →
      st'.1.driftAt j i' = st.1.driftAt j i'
        ∧ st'.1.diffusionAt j i' = st.1.diffusionAt j i' := by
  obtain ⟨aj, pj, tj, p, -, -, -, hp, -, -, hst'⟩ := assetStep_eq_some h
  have hjlen : x < st.1.paths.length := get?_some_lt hp
  subst hst'
  intro j i' hi'
  by_cases hjx : j = x
  · subst hjx
    constructor <;>
      simp only [MultiPath.driftAt, MultiPath.diffusionAt, hp, Option.some_bind,
        List.get?_eq_getElem?, List.getElem?_set_eq_of_lt _ (by simpa using hjlen),
        Option.some_bind] <;>
      rw [List.getElem?_set_ne (by omega)]
  · constructor <;>
      simp only [MultiPath.driftAt, MultiPath.diffusionAt, List.get?_eq_getElem?] <;>
      rw [List.getElem?_set_ne (by omega)]

theorem assetStep_pres_struct {K : Type} [Field K] {sq ex : K → K}
    {procs : List (DiffusionProcess K)} {t dtv : K} {temp : List K} {i : Nat}
    {st st' : MultiPath K × List K} {x : Nat}
    (h : assetStep sq ex procs t dtv temp i st x = some st') :
    st'.1.grid = st.1.grid ∧ st'.1.paths.length = st.1.paths.length ∧
      st'.2.length = st.2.length := by
  obtain ⟨aj, pj, tj, p, -, -, -, -, -, -, hst'⟩ := assetStep_eq_some h
  subst hst'
  simp

theorem innerFold_pres_other {K : Type} [Field K] {sq ex : K → K}
    {procs : List (DiffusionProcess K)} {t dtv : K} {temp : List K} {i : Nat}
    (l : List Nat) {st st' : MultiPath K × List K}
    (hfold : l.foldlM (assetStep sq ex procs t dtv temp i) st = some st')
    (j : Nat) (hj : ∀ x ∈ l, x ≠ j) :
    st'.1.paths.get? j = st.1.paths.get? j ∧ st'.2.get? j = st.2.get? j := by
  have := foldlM_option_pres (assetStep sq ex procs t dtv temp i)
    (fun a b => b.1.paths.get? j = a.1.paths.get? j ∧ b.2.get? j = a.2.get? j)
    (fun b => ⟨rfl, rfl⟩)
    (fun a b c hab hbc => ⟨hbc.1.trans hab.1, hbc.2.trans hab.2⟩)
    l st st'
    (fun c x c' hx hc => assetStep_pres_other hc j (fun he => absurd he.symm (hj x hx)))
    hfold
  exact this

theorem innerFold_pres_col {K : Type} [Field K] {sq ex : K → K}
    {procs : List (DiffusionProcess K)} {t dtv : K} {temp : List K} {i : Nat}
    (l : List Nat) {st st' : MultiPath K × List K}
    (hfold : l.foldlM (assetStep sq ex procs t dtv temp i) st = some st') :
    ∀ j i', i' ≠ i →
      st'.1.driftAt j i' = st.1.driftAt j i'
        ∧ st'.1.diffusionAt j i' = st.1.diffusionAt j i' := by
  have := foldlM_option_pres (assetStep sq ex procs t dtv temp i)
    (fun a b => ∀ j i', i' ≠ i →
      b.1.driftAt j i' = a.1.driftAt j i' ∧ b.1.diffusionAt j i' = a.1.diffusionAt j i')
    (fun b j i' _ => ⟨rfl, rfl⟩)
    (fun a b c hab hbc j i' hi' =>
      ⟨(hbc j i' hi').1.trans (hab j i' hi').1, (hbc j i' hi').2.trans (hab j i' hi').2⟩)
    l st st'
    (fun c x c' _ hc j i' hi' => assetStep_pres_col hc j i' hi')
    hfold
  exact this

theorem innerFold_pres_struct {K : Type} [Field K] {sq ex : K → K}
    {procs : List (DiffusionProcess K)} {t dtv : K} {temp : List K} {i : Nat}
    (l : List Nat) {st st' : MultiPath K × List K}
    (hfold : l.foldlM (assetStep sq ex procs t dtv temp i) st = some st') :
    st'.1.grid = st.1.grid ∧ st'.1.paths.length = st.1.paths.length ∧
      st'.2.length = st.2.length := by
  have := foldlM_option_pres (assetStep sq ex procs t dtv temp i)
    (fun a b => b.1.grid = a.1.grid ∧ b.1.paths.length = a.1.paths.length ∧
      b.2.length = a.2.length)
    (fun b => ⟨rfl, rfl, rfl⟩)
    (fun a b c hab hbc => ⟨hbc.1.trans hab.1, hbc.2.1.trans hab.2.1, hbc.2.2.trans hab.2.2⟩)
    l st st'
    (fun c x c' _ hc => assetStep_pres_struct hc)
    hfold
  exact this

theorem stepOne_eq_some {K : Type} [Field K] {sq ex : K → K} {S : QLMatrix K}
    {procs : List (DiffusionProcess K)} {numAssets : Nat} {grid seqv : List K}
    {st st' : MultiPath K × List K} {i : Nat}
    (h : stepOne sq ex S procs numAssets grid seqv st i = some st') :
    ∃ b temp, blockOf seqv (i * numAssets) numAssets = some b ∧
      correlatedStep sq S b = some temp ∧
      (List.range numAssets).foldlM
        (assetStep sq ex procs (gridAt grid (i + 1)) (gridDt grid i) temp i) st
        = some st' := by
  simp only [stepOne] at h
  rcases Option.bind_eq_some.mp h with ⟨b, hb, h⟩
  rcases Option.bind_eq_some.mp h with ⟨temp, htemp, h⟩
  exact ⟨b, temp, hb, htemp, h⟩

theorem stepOne_pres_col {K : Type} [Field K] {sq ex : K → K} {S : QLMatrix K}
    {procs : List (DiffusionProcess K)} {numAssets : Nat} {grid seqv : List K}
    {st st' : MultiPath K × List K} {x : Nat}
    (h : stepOne sq ex S procs numAssets grid seqv st x = some st') :
    ∀ j i', i' ≠ x →
      st'.1.driftAt j i' = st.1.driftAt j i'
        ∧ st'.1.diffusionAt j i' = st.1.diffusionAt j i' := by
  obtain ⟨b, temp, -, -, hfold⟩ := stepOne_eq_some h
  exact innerFold_pres_col _ hfold

theorem stepOne_pres_struct {K : Type} [Field K] {sq ex : K → K} {S : QLMatrix K}
    {procs : List (DiffusionProcess K)} {numAssets : Nat} {grid seqv : List K}
    {st st' : MultiPath K × List K} {x : Nat}
    (h : stepOne sq ex S procs numAssets grid seqv st x = some st') :
    st'.1.grid = st.1.grid ∧ st'.1.paths.length = st.1.paths.length ∧
      st'.2.length = st.2.length := by
  obtain ⟨b, temp, -, -, hfold⟩ := stepOne_eq_some h
  exact innerFold_pres_struct _ hfold

theorem outerFold_pres_col {K : Type} [Field K] {sq ex : K → K} {S : QLMatrix K}
    {procs : List (DiffusionProcess K)} {numAssets : Nat} {grid seqv : List K}
    (l : List Nat) {st st' : MultiPath K × List K}
    (hfold : l.foldlM (stepOne sq ex S procs numAssets grid seqv) st = some st')
    (i : Nat) (hi : ∀ x ∈ l, x ≠ i) :
    ∀ j, st'.1.driftAt j i = st.1.driftAt j i
      ∧ st'.1.diffusionAt j i = st.1.diffusionAt j i := by
  have := foldlM_option_pres (stepOne sq ex S procs numAssets grid seqv)
    (fun a b => ∀ j, b.1.driftAt j i = a.1.driftAt j i
      ∧ b.1.diffusionAt j i = a.1.diffusionAt j i)
    (fun b j => ⟨rfl, rfl⟩)
    (fun a b c hab hbc j => ⟨(hbc j).1.trans (hab j).1, (hbc j).2.trans (hab j).2⟩)
    l st st'
    (fun c x c' hx hc j => stepOne_pres_col hc j i (Ne.symm (hi x hx)))
    hfold
  exact this

/-! Totality of a call to `next` on structurally well-formed states. -/

theorem correlatedStep_some {K : Type} [Field K] (sq : K → K) (S : QLMatrix K)
    (draw : List K) (hc : S.cols = draw.length) (hr2 : 2 ≤ S.rows)
    (hc2 : 2 ≤ S.cols) :
    ∃ temp, correlatedStep sq S draw = some temp ∧ temp.length = S.rows := by
  simp only [QLMatrix.rows] at hr2
  have hmv : mulVec S draw = some (S.data.map fun row => dot row draw) := by
    rw [mulVec, if_pos hc]
  obtain ⟨r0, hr0⟩ := get?_exists_of_lt (show 0 < S.data.length by omega)
  obtain ⟨r1, hr1⟩ := get?_exists_of_lt (show 1 < S.data.length by omega)
  have hr0len : r0.length = S.cols := S.huni r0 (List.get?_mem hr0)
  have hr1len : r1.length = S.cols := S.huni r1 (List.get?_mem hr1)
  obtain ⟨s00, hs00⟩ := get?_exists_of_lt (show 0 < r0.length by omega)
  obtain ⟨s01, hs01⟩ := get?_exists_of_lt (show 1 < r0.length by omega)
  obtain ⟨s10, hs10⟩ := get?_exists_of_lt (show 0 < r1.length by omega)
  obtain ⟨s11, hs11⟩ := get?_exists_of_lt (show 1 < r1.length by omega)
  have htlen : (S.data.map fun row => dot row draw).length = S.data.length :=
    List.length_map _ _
  obtain ⟨t0, ht0⟩ := get?_exists_of_lt
    (show 0 < (S.data.map fun row => dot row draw).length by omega)
  obtain ⟨t1, ht1⟩ := get?_exists_of_lt
    (show 1 < (S.data.map fun row => dot row draw).length by omega)
  refine ⟨((S.data.map fun row => dot row draw).set 0
      (t0 / sq (s00 * s00 + s01 * s01))).set 1 (t1 / sq (s10 * s10 + s11 * s11)),
    ?_, ?_⟩
  · rw [correlatedStep, hmv, Option.some_bind]
    simp only [QLMatrix.entry, hr0, hr1, Option.some_bind, hs00, hs01, hs10, hs11,
      ht0, ht1]
  · simp only [List.length_set, htlen, QLMatrix.rows]

theorem innerFold_total {K : Type} [Field K] (sq ex : K → K)
    (procs : List (DiffusionProcess K)) (t dtv : K) (temp : List K)
    (i N numSteps : Nat)
    (hpN : N ≤ procs.length) (htN : N ≤ temp.length) (hiN : i < numSteps)
    (st : MultiPath K × List K)
    (h1 : st.1.paths.length = N) (h2 : st.2.length = N)
    (h3 : ∀ jj pp, st.1.paths.get? jj = some pp →
      pp.drift.length = numSteps ∧ pp.diffusion.length = numSteps) :
    ∃ st', (List.range N).foldlM (assetStep sq ex procs t dtv temp i) st = some st' ∧
      st'.1.paths.length = N ∧ st'.2.length = N ∧
      (∀ jj pp, st'.1.paths.get? jj = some pp →
        pp.drift.length = numSteps ∧ pp.diffusion.length = numSteps) ∧
      st'.1.grid = st.1.grid := by
  have hinv := foldlM_option_invariant (assetStep sq ex procs t dtv temp i)
    (fun c => c.1.paths.length = N ∧ c.2.length = N ∧
      (∀ jj pp, c.1.paths.get? jj = some pp →
        pp.drift.length = numSteps ∧ pp.diffusion.length = numSteps) ∧
      c.1.grid = st.1.grid)
    (List.range N) st ⟨h1, h2, h3, rfl⟩ ?_
  · obtain ⟨b, hb, hP⟩ := hinv
    exact ⟨b, hb, hP.1, hP.2.1, hP.2.2.1, hP.2.2.2⟩
  · intro c x hx hc
    rw [List.mem_range] at hx
    obtain ⟨aj, haj⟩ := get?_exists_of_lt (show x < c.2.length by omega)
    obtain ⟨pj, hpj⟩ := get?_exists_of_lt (show x < procs.length by omega)
    obtain ⟨tj, htj⟩ := get?_exists_of_lt (show x < temp.length by omega)
    obtain ⟨p, hp⟩ := get?_exists_of_lt (show x < c.1.paths.length by omega)
    obtain ⟨hpd, hpf⟩ := hc.2.2.1 x p hp
    refine ⟨_, assetStep_some sq ex procs t dtv temp i c x haj hpj htj hp
      (by omega) (by omega), ?_, ?_, ?_, ?_⟩
    · simpa using hc.1
    · simpa using hc.2.1
    · intro jj pp hpp
      simp only [List.get?_eq_getElem?] at hpp
      by_cases hjj : jj = x
      · subst hjj
        rw [List.getElem?_set_eq_of_lt _ (by simpa using get?_some_lt hp)] at hpp
        simp only [Option.some.injEq] at hpp
        subst hpp
        constructor <;> simp [hpd, hpf]
      · rw [List.getElem?_set_ne (by omega)] at hpp
        exact hc.2.2.1 jj pp (by rw [List.get?_eq_getElem?]; exact hpp)
    · exact hc.2.2.2

theorem stepOne_total {K : Type} [Field K] (sq ex : K → K) (S : QLMatrix K)
    (procs : List (DiffusionProcess K)) (N numSteps : Nat) (grid seqv : List K)
    (hcols : S.cols = N) (hrows : S.rows = N) (h2 : 2 ≤ N)
    (hpN : N ≤ procs.length) (hseq : seqv.length = N * numSteps)
    (st : MultiPath K × List K) (i : Nat) (hi : i < numSteps)
    (h1 : st.1.paths.length = N) (hlen2 : st.2.length = N)
    (h3 : ∀ jj pp, st.1.paths.get? jj = some pp →
      pp.drift.length = numSteps ∧ pp.diffusion.length = numSteps) :
    ∃ st', stepOne sq ex S procs N grid seqv st i = some st' ∧
      st'.1.paths.length = N ∧ st'.2.length = N ∧
      (∀ jj pp, st'.1.paths.get? jj = some pp →
        pp.drift.length = numSteps ∧ pp.diffusion.length = numSteps) ∧
      st'.1.grid = st.1.grid := by
  have hoff : i * N + N ≤ seqv.length := by
    rw [hseq]
    calc i * N + N = (i + 1) * N := by ring
    _ ≤ numSteps * N := Nat.mul_le_mul_right N (by omega)
    _ = N * numSteps := by ring
  have hblock : blockOf seqv (i * N) N = some ((seqv.drop (i * N)).take N) := by
    rw [blockOf, if_pos hoff]
  have hblen : ((seqv.drop (i * N)).take N).length = N := by
    rw [List.length_take, List.length_drop]
    omega
  obtain ⟨temp, htemp, htlen⟩ := correlatedStep_some sq S ((seqv.drop (i * N)).take N)
    (by rw [hcols, hblen]) (by omega) (by omega)
  obtain ⟨st', hst', hP⟩ := innerFold_total sq ex procs (gridAt grid (i + 1))
    (gridDt grid i) temp i N numSteps hpN (by rw [htlen, hrows]) hi st h1 hlen2 h3
  refine ⟨st', ?_, hP⟩
  rw [stepOne]
  rw [hblock, Option.some_bind, htemp, Option.some_bind]
  exact hst'

theorem next_total {K : Type} [Field K] (sq ex : K → K)
    (g : MultiPathGenerator K) (st : GenState K) (numSteps : Nat)
    (h2 : 2 ≤ g.numAssets)
    (hp : g.diffusionProcs.length = g.numAssets)
    (hrows : g.sqrtCovariance.rows = g.numAssets)
    (hcols : g.sqrtCovariance.cols = g.numAssets)
    (hdim : g.generator.dimension = g.numAssets * numSteps)
    (hwf : stateWF g.numAssets numSteps st) :
    ∃ st', next sq ex g st = some st' ∧ stateWF g.numAssets numSteps st' ∧
      st'.count = st.count + 1 ∧
      st'.buf.weight = (g.generator.seq st.count).weight := by
  obtain ⟨asset0, hA, hAlen, -⟩ := mapM_range_some
    (fun j => (g.diffusionProcs.get? j).map fun p => p.x0) g.numAssets
    (fun j hj => by
      obtain ⟨pj, hpj⟩ := get?_exists_of_lt (show j < g.diffusionProcs.length by omega)
      rw [List.get?_eq_getElem?] at hpj
      simp [hpj])
  obtain ⟨p0, hp0⟩ := get?_exists_of_lt
    (show 0 < st.buf.value.paths.length by rw [hwf.1]; omega)
  obtain ⟨hp0d, -⟩ := hwf.2 0 p0 hp0
  have hseq : (g.generator.seq st.count).value.length = g.numAssets * numSteps := by
    rw [g.generator.hdim, hdim]
  have hrun := foldlM_option_invariant
    (stepOne sq ex g.sqrtCovariance g.diffusionProcs g.numAssets
      st.buf.value.grid (g.generator.seq st.count).value)
    (fun c => c.1.paths.length = g.numAssets ∧ c.2.length = g.numAssets ∧
      (∀ jj pp, c.1.paths.get? jj = some pp →
        pp.drift.length = numSteps ∧ pp.diffusion.length = numSteps))
    (List.range p0.size) (st.buf.value, asset0)
    ⟨hwf.1, hAlen, hwf.2⟩
    (fun c x hx hc => by
      rw [List.mem_range] at hx
      have hx' : x < numSteps := by
        have : p0.size = numSteps := by rw [Path.size, hp0d]
        omega
      obtain ⟨c', hc', hP1, hP2, hP3, -⟩ := stepOne_total sq ex g.sqrtCovariance
        g.diffusionProcs g.numAssets numSteps st.buf.value.grid
        (g.generator.seq st.count).value hcols hrows h2 (by omega) hseq
        c x hx' hc.1 hc.2.1 hc.2.2
      exact ⟨c', hc', hP1, hP2, hP3⟩)
  obtain ⟨res, hres, hresP⟩ := hrun
  refine ⟨{ buf := { value := res.1, weight := (g.generator.seq st.count).weight }
            count := st.count + 1 }, ?_, ⟨hresP.1, hresP.2.2⟩, rfl, rfl⟩
  have hA' : assetInit g.diffusionProcs g.numAssets = some asset0 := hA
  rw [next]
  rw [hA', Option.some_bind, hp0, Option.some_bind]
  simp only [runSteps]
  rw [hres, Option.some_bind]

/-! Characterization of the constructor. -/

theorem prefillAll_spec {K : Type} [Field K] (drifts : List K) (grid : List K) :
    ∀ (n : Nat) (paths : List (Path K)),
      (prefillAll drifts grid n paths).length = paths.length ∧
      (∀ j, n ≤ j → (prefillAll drifts grid n paths).get? j = paths.get? j) ∧
      (∀ j, j < n → j < paths.length →
        (prefillAll drifts grid n paths).get? j
          = some (prefillPath (drifts.getD j 0) grid
              (paths.getD j { drift := [], diffusion := [] }))) := by
  intro n
  induction n with
  | zero =>
    intro paths
    refine ⟨rfl, fun j _ => rfl, fun j hj _ => absurd hj (Nat.not_lt_zero j)⟩
  | succ k ih =>
    intro paths
    obtain ⟨ihlen, ihge, ihlt⟩ := ih paths
    have hstep : prefillAll drifts grid (k + 1) paths
        = (prefillAll drifts grid k paths).set k
            (prefillPath (drifts.getD k 0) grid
              ((prefillAll drifts grid k paths).getD k { drift := [], diffusion := [] })) := by
      unfold prefillAll
      rw [List.range_succ, List.foldl_append]
      simp
    have hgetDk : (prefillAll drifts grid k paths).getD k { drift := [], diffusion := [] }
        = paths.getD k { drift := [], diffusion := [] } := by
      rw [List.getD_eq_getElem?_getD, List.getD_eq_getElem?_getD, ← List.get?_eq_getElem?,
        ← List.get?_eq_getElem?, ihge k (Nat.le_refl k)]
    refine ⟨by rw [hstep]; simp [ihlen], ?_, ?_⟩
    · intro j hj
      rw [hstep, List.get?_eq_getElem?, List.getElem?_set_ne (by omega),
        ← List.get?_eq_getElem?]
      exact ihge j (by omega)
    · intro j hj hjlen
      rcases Nat.lt_or_ge j k with hjk | hjk
      · rw [hstep, List.get?_eq_getElem?, List.getElem?_set_ne (by omega),
          ← List.get?_eq_getElem?]
        exact ihlt j hjk hjlen
      · have hjeq : j = k := by omega
        subst hjeq
        rw [hstep, hgetDk, List.get?_eq_getElem?,
          List.getElem?_set_eq_of_lt _ (by rw [ihlen]; omega)]

theorem prefillPath_spec {K : Type} [Field K] (d : K) (grid : List K) (p : Path K) :
    (prefillPath d grid p).drift.length = p.drift.length ∧
    (prefillPath d grid p).diffusion = p.diffusion ∧
    (∀ i, i < grid.length - 1 → i < p.drift.length →
      (prefillPath d grid p).drift.get? i = some (d * gridDt grid i)) := by
  refine ⟨?_, rfl, ?_⟩
  · exact foldl_set_range_length _ _ _
  · intro i hi hlen
    exact foldl_set_range_get _ _ _ i hi hlen

theorem mk_isSome_iff {K : Type} [Field K] (msqrt : QLMatrix K → QLMatrix K)
    (procs : List (DiffusionProcess K)) (drifts : List K) (cov : QLMatrix K)
    (times : List K) (gen : SG K) :
    (mkMultiPathGenerator msqrt procs drifts cov times gen).isSome = true ↔
      (gen.dimension = cov.rows * (times.length - 1) ∧
       drifts.length = cov.rows ∧
       (msqrt cov).cols = cov.rows ∧
       1 < times.length) := by
  by_cases h1 : gen.dimension = cov.rows * (times.length - 1) <;>
    by_cases h2 : drifts.length = cov.rows <;>
      by_cases h3 : (msqrt cov).cols = cov.rows <;>
        by_cases h4 : 1 < times.length <;>
          simp [mkMultiPathGenerator, h1, h2, h3, h4]

theorem mk_eq_some_elim {K : Type} [Field K] {msqrt : QLMatrix K → QLMatrix K}
    {procs : List (DiffusionProcess K)} {drifts : List K} {cov : QLMatrix K}
    {times : List K} {gen : SG K} {gst : MultiPathGenerator K × GenState K}
    (h : mkMultiPathGenerator msqrt procs drifts cov times gen = some gst) :
    gst.1.diffusionProcs = procs ∧
    gst.1.numAssets = cov.rows ∧
    gst.1.sqrtCovariance = msqrt cov ∧
    gst.1.generator = gen ∧
    gst.2.buf.value.grid = times ∧
    gst.2.buf.value.paths
      = prefillAll drifts times cov.rows (freshMultiPath cov.rows times).paths ∧
    gst.2.buf.weight = 1 ∧
    gst.2.count = 0 ∧
    gen.dimension = cov.rows * (times.length - 1) ∧
    drifts.length = cov.rows ∧
    (msqrt cov).cols = cov.rows ∧
    1 < times.length := by
  simp only [mkMultiPathGenerator] at h
  split_ifs at h with h1 h2 h3 h4
  rcases gst with ⟨g, st⟩
  rw [Option.some.injEq, Prod.mk.injEq] at h
  obtain ⟨hg, hst⟩ := h
  subst hg
  subst hst
  refine ⟨rfl, rfl, rfl, rfl, rfl, rfl, rfl, rfl, ?_, ?_, ?_, ?_⟩ <;> omega

theorem mk_path_entries {K : Type} [Field K] {msqrt : QLMatrix K → QLMatrix K}
    {procs : List (DiffusionProcess K)} {drifts : List K} {cov : QLMatrix K}
    {times : List K} {gen : SG K} {gst : MultiPathGenerator K × GenState K}
    (h : mkMultiPathGenerator msqrt procs drifts cov times gen = some gst) :
    gst.2.buf.value.paths.length = cov.rows ∧
    ∀ j, j < cov.rows →
      ∃ p, gst.2.buf.value.paths.get? j = some p ∧
        p.drift.length = times.length - 1 ∧
        p.diffusion = List.replicate (times.length - 1) (0 : K) ∧
        ∀ i, i < times.length - 1 → p.drift.get? i = some (drifts.getD j 0 * gridDt times i) := by
  obtain ⟨-, -, -, -, -, hpaths, -⟩ := mk_eq_some_elim h
  obtain ⟨hlen, -, hlt⟩ :=
    prefillAll_spec drifts times cov.rows (freshMultiPath cov.rows times).paths
  have hfresh : (freshMultiPath cov.rows times).paths.length = cov.rows := by
    simp [freshMultiPath]
  constructor
  · rw [hpaths, hlen, hfresh]
  · intro j hj
    have hget := hlt j hj (by rw [hfresh]; exact hj)
    have hgetD : (freshMultiPath cov.rows times).paths.getD j { drift := [], diffusion := [] }
        = ({ drift := List.replicate (times.length - 1) 0
             diffusion := List.replicate (times.length - 1) 0 } : Path K) := by
      rw [List.getD_eq_getElem?_getD]
      simp [freshMultiPath, List.getElem?_replicate, hj]
    rw [hgetD] at hget
    obtain ⟨hplen, hpdiff, hpget⟩ :=
      prefillPath_spec (drifts.getD j 0) times
        ({ drift := List.replicate (times.length - 1) 0
           diffusion := List.replicate (times.length - 1) 0 } : Path K)
    refine ⟨_, by rw [hpaths]; exact hget, ?_, ?_, ?_⟩
    · simpa using hplen
    · simpa using hpdiff
    · intro i hi
      exact hpget i hi (by simpa using hi)

theorem nextIterate_succ_right {K : Type} [Field K] (sq ex : K → K)
    (g : MultiPathGenerator K) :
    ∀ (st : GenState K) (k : Nat),
      nextIterate sq ex g st (k + 1)
        = (nextIterate sq ex g st k).bind fun s => next sq ex g s := by
  intro st k
  induction k generalizing st with
  | zero => simp [nextIterate]
  | succ m ih =>
    rw [nextIterate]
    cases hn : next sq ex g st with
    | none => simp [nextIterate, hn]
    | some s =>
      rw [Option.some_bind, ih s, nextIterate, hn, Option.some_bind]

theorem nextIterate_one {K : Type} [Field K] (sq ex : K → K)
    (g : MultiPathGenerator K) (st : GenState K) :
    nextIterate sq ex g st 1 = next sq ex g st := by
  cases hn : next sq ex g st <;> simp [nextIterate, hn]

theorem assetStep_pres_lens {K : Type} [Field K] {sq ex : K → K}
    {procs : List (DiffusionProcess K)} {t dtv : K} {temp : List K} {i : Nat}
    {st st' : MultiPath K × List K} {x : Nat}
    (h : assetStep sq ex procs t dtv temp i st x = some st') :
    ∀ jj, (st'.1.paths.get? jj).map (fun p => (p.drift.length, p.diffusion.length))
      = (st.1.paths.get? jj).map (fun p => (p.drift.length, p.diffusion.length)) := by
  obtain ⟨aj, pj, tj, p, -, -, -, hp, -, -, hst'⟩ := assetStep_eq_some h
  have hx : x < st.1.paths.length := get?_some_lt hp
  subst hst'
  intro jj
  by_cases hjx : jj = x
  · subst hjx
    rw [List.get?_eq_getElem?, List.getElem?_set_eq_of_lt _ (by simpa using hx), hp]
    simp
  · rw [List.get?_eq_getElem?, List.getElem?_set_ne (by omega), ← List.get?_eq_getElem?]

theorem stepOne_pres_lens {K : Type} [Field K] {sq ex : K → K} {S : QLMatrix K}
    {procs : List (DiffusionProcess K)} {numAssets : Nat} {grid seqv : List K}
    {st st' : MultiPath K × List K} {x : Nat}
    (h : stepOne sq ex S procs numAssets grid seqv st x = some st') :
    ∀ jj, (st'.1.paths.get? jj).map (fun p => (p.drift.length, p.diffusion.length))
      = (st.1.paths.get? jj).map (fun p => (p.drift.length, p.diffusion.length)) := by
  obtain ⟨b, temp, -, -, hfold⟩ := stepOne_eq_some h
  have := foldlM_option_pres
    (assetStep sq ex procs (gridAt grid (x + 1)) (gridDt grid x) temp x)
    (fun a b => ∀ jj,
      (b.1.paths.get? jj).map (fun p => (p.drift.length, p.diffusion.length))
        = (a.1.paths.get? jj).map (fun p => (p.drift.length, p.diffusion.length)))
    (fun b jj => rfl)
    (fun a b c hab hbc jj => (hbc jj).trans (hab jj))
    (List.range numAssets) st st'
    (fun c y c' _ hc jj => assetStep_pres_lens hc jj) hfold
  exact this

theorem next_pres {K : Type} [Field K] {sq ex : K → K}
    {g : MultiPathGenerator K} {st st' : GenState K}
    (h : next sq ex g st = some st') :
    st'.buf.value.grid = st.buf.value.grid ∧
    st'.count = st.count + 1 ∧
    ∀ jj, (st'.buf.value.paths.get? jj).map
        (fun p => (p.drift.length, p.diffusion.length))
      = (st.buf.value.paths.get? jj).map
        (fun p => (p.drift.length, p.diffusion.length)) := by
  simp only [next] at h
  rcases Option.bind_eq_some.mp h with ⟨asset0, hA, h⟩
  rcases Option.bind_eq_some.mp h with ⟨p0, hp0, h⟩
  rcases Option.bind_eq_some.mp h with ⟨res, hres, h⟩
  simp only [Option.some.injEq] at h
  have hfold := foldlM_option_pres
    (stepOne sq ex g.sqrtCovariance g.diffusionProcs g.numAssets
      st.buf.value.grid (g.generator.seq st.count).value)
    (fun a b => b.1.grid = a.1.grid ∧ ∀ jj,
      (b.1.paths.get? jj).map (fun p => (p.drift.length, p.diffusion.length))
        = (a.1.paths.get? jj).map (fun p => (p.drift.length, p.diffusion.length)))
    (fun b => ⟨rfl, fun jj => rfl⟩)
    (fun a b c hab hbc => ⟨hbc.1.trans hab.1, fun jj => (hbc.2 jj).trans (hab.2 jj)⟩)
    (List.range p0.size) _ _
    (fun c y c' _ hc => ⟨(stepOne_pres_struct hc).1, stepOne_pres_lens hc⟩)
    hres
  rw [← h]
  exact ⟨hfold.1, rfl, hfold.2⟩

theorem nextIterate_pres {K : Type} [Field K] {sq ex : K → K}
    {g : MultiPathGenerator K} :
    ∀ {k : Nat} {st stk : GenState K}, nextIterate sq ex g st k = some stk →
      stk.buf.value.grid = st.buf.value.grid ∧
      stk.count = st.count + k ∧
      ∀ jj, (stk.buf.value.paths.get? jj).map
          (fun p => (p.drift.length, p.diffusion.length))
        = (st.buf.value.paths.get? jj).map
          (fun p => (p.drift.length, p.diffusion.length)) := by
  intro k
  induction k with
  | zero =>
    intro st stk h
    simp only [nextIterate, Option.some.injEq] at h
    subst h
    exact ⟨rfl, rfl, fun jj => rfl⟩
  | succ m ih =>
    intro st stk h
    rw [nextIterate] at h
    rcases Option.bind_eq_some.mp h with ⟨s1, hs1, hrest⟩
    obtain ⟨hg1, hc1, hl1⟩ := next_pres hs1
    obtain ⟨hg2, hc2, hl2⟩ := ih hrest
    exact ⟨hg2.trans hg1, by omega, fun jj => (hl2 jj).trans (hl1 jj)⟩

theorem mk_stateWF {K : Type} [Field K] {msqrt : QLMatrix K → QLMatrix K}
    {procs : List (DiffusionProcess K)} {drifts : List K} {cov : QLMatrix K}
    {times : List K} {gen : SG K} {gst : MultiPathGenerator K × GenState K}
    (hmk : mkMultiPathGenerator msqrt procs drifts cov times gen = some gst) :
    stateWF cov.rows (times.length - 1) gst.2 := by
  obtain ⟨hlen, hjENT⟩ := mk_path_entries hmk
  refine ⟨hlen, ?_⟩
  intro j p hp
  have hj : j < cov.rows := by rw [← hlen]; exact get?_some_lt hp
  obtain ⟨p', hp', hd', hf', -⟩ := hjENT j hj
  rw [hp] at hp'
  obtain rfl : p = p' := (Option.some.injEq _ _).mp hp'
  exact ⟨hd', by rw [hf']; simp⟩

/-! Failure of the step transform for fewer than two columns. -/

theorem correlatedStep_none_of_cols_lt_two {K : Type} [Field K] (sq : K → K)
    (S : QLMatrix K) (draw : List K) (h : S.cols < 2) :
    correlatedStep sq S draw = none := by
  unfold correlatedStep mulVec QLMatrix.entry
  by_cases hc : S.cols = draw.length
  · simp only [hc, if_pos rfl, Option.some_bind]
    cases hd : S.data with
    | nil => simp
    | cons r rs =>
      have hr : r.length = S.cols := S.huni r (by rw [hd]; exact List.mem_cons_self r rs)
      simp only [List.get?_eq_getElem?, List.getElem?_cons_zero, Option.some_bind]
      interval_cases hS : S.cols
      · have : r = [] := List.eq_nil_of_length_eq_zero (by omega)
        subst this
        simp
      · rcases List.length_eq_one.mp (by omega : r.length = 1) with ⟨a, ha⟩
        subst ha
        simp
  · simp [hc]

theorem stepOne_none_of_cols_lt_two {K : Type} [Field K] (sq ex : K → K)
    (S : QLMatrix K) (procs : List (DiffusionProcess K)) (numAssets : Nat)
    (grid seqv : List K) (st : MultiPath K × List K) (i : Nat) (h : S.cols < 2) :
    stepOne sq ex S procs numAssets grid seqv st i = none := by
  unfold stepOne
  cases blockOf seqv (i * numAssets) numAssets with
  | none => rfl
  | some b => simp [correlatedStep_none_of_cols_lt_two sq S b h]

theorem runSteps_none_of_cols_lt_two {K : Type} [Field K] (sq ex : K → K)
    (S : QLMatrix K) (procs : List (DiffusionProcess K)) (numAssets : Nat)
    (grid seqv : List K) (st : MultiPath K × List K) (m : Nat) (hm : 0 < m)
    (h : S.cols < 2) :
    runSteps sq ex S procs numAssets grid seqv st m = none := by
  obtain ⟨k, hk⟩ := Nat.exists_eq_succ_of_ne_zero (Nat.pos_iff_ne_zero.mp hm)
  subst hk
  unfold runSteps
  rw [List.range_succ_eq_map, List.foldlM_cons,
    stepOne_none_of_cols_lt_two sq ex S procs numAssets grid seqv st 0 h]
  rfl

/-! Claim theorems. -/

/-- C1 counterexample: on the validly constructed 3-asset generator `gst3`,
whose factor's third row `[0, 0, 2]` has Euclidean norm 2 (its square is 4
and the code's root function maps 4 to 2), the step transform applied to the
call's actual draw block `[0, 0, 1]` leaves component 2 equal to the raw
product value 2 — it is not divided by the row norm, which would give
`2 / 2 = 1 ≠ 2` — and the unnormalized shock reaches the stored diffusion
increment of asset 2 as `-2`. -/
theorem c1_counterexample :
    blockOf [(0 : ℚ), 0, 1] (0 * 3) 3 = some [0, 0, 1] ∧
    correlatedStep sqrtQ fac3 [0, 0, 1] = some [0, 0, 2] ∧
    rowNormSq [(0 : ℚ), 0, 2] = 4 ∧
    sqrtQ (rowNormSq [(0 : ℚ), 0, 2]) = 2 ∧
    (2 : ℚ) / 2 ≠ 2 ∧
    (next sqrtQ expQ gst3.1 gst3.2).isSome = true ∧
    diffusionEntry stNext3 2 0 = some (-2) := by
  refine ⟨by norm_num [blockOf], ?_, by norm_num [rowNormSq], by norm_num [rowNormSq, sqrtQ],
    by norm_num, by decide, ?_⟩
  · norm_num [correlatedStep, mulVec, dot, QLMatrix.entry, fac3, sqrtQ]
  · norm_num [diffusionEntry, MultiPath.diffusionAt, stNext3, next, runSteps, stepOne,
      assetStep, correlatedStep,
      mulVec, dot, blockOf, assetInit, setDrift, setDiffusion, gridAt, gridDt,
      QLMatrix.entry, Path.size, gst3, mk3, mkMultiPathGenerator, prefillAll, prefillPath,
      freshMultiPath, fac3, procU, constSG, sqrtQ, expQ, QLMatrix.rows,
      List.range_succ, List.mapM.loop, Option.get_some]

/-- C1 amended: for a generator with exactly two assets (2-by-2 correlation
factor, draw blocks of length 2), the step transform does multiply the draw
block by `S` and divide each resulting component `k` by the root of the sum
of squares of the entire row `k` — its Euclidean norm — because row `k` then
consists exactly of the entries `[k][0]` and `[k][1]` that the code uses.
For any other asset count the fixed-index normalization does not implement
the claimed per-row rule. -/
theorem c1_amended_two_asset_row_normalization {K : Type} [Field K]
    (sq : K → K) (S : QLMatrix K) (draw : List K)
    (hc : S.cols = 2) (hr : S.rows = 2) (hd : draw.length = 2) :
    ∃ a b c d, S.data = [[a, b], [c, d]] ∧
      mulVec S draw = some [dot [a, b] draw, dot [c, d] draw] ∧
      correlatedStep sq S draw
        = some [dot [a, b] draw / sq (rowNormSq [a, b]),
                dot [c, d] draw / sq (rowNormSq [c, d])] := by
  obtain ⟨r0, r1, hdata⟩ := List.length_eq_two.mp hr
  have h0 : r0.length = 2 := by
    rw [← hc]
    exact S.huni r0 (by rw [hdata]; exact List.mem_cons_self _ _)
  have h1 : r1.length = 2 := by
    rw [← hc]
    exact S.huni r1 (by rw [hdata]; exact List.mem_cons_of_mem _ (List.mem_cons_self _ _))
  obtain ⟨a, b, ha⟩ := List.length_eq_two.mp h0
  obtain ⟨c, d, hcd⟩ := List.length_eq_two.mp h1
  subst ha
  subst hcd
  refine ⟨a, b, c, d, hdata, ?_, ?_⟩
  · simp [mulVec, hdata, hc, hd]
  · simp [correlatedStep, mulVec, QLMatrix.entry, rowNormSq, hdata, hc, hd]

/-- C1 amended witness: the 2-by-2 identity factor with draw block `[1, 1]`. -/
theorem c1_amended_two_asset_row_normalization_witness :
    ∃ a b c d, id2.data = [[a, b], [c, d]] ∧
      mulVec id2 [(1 : ℚ), 1] = some [dot [a, b] [1, 1], dot [c, d] [1, 1]] ∧
      correlatedStep sqrtQ id2 [(1 : ℚ), 1]
        = some [dot [a, b] [1, 1] / sqrtQ (rowNormSq [a, b]),
                dot [c, d] [1, 1] / sqrtQ (rowNormSq [c, d])] :=
  c1_amended_two_asset_row_normalization sqrtQ id2 [1, 1] rfl rfl rfl

/-- C7: the code applies the division unconditionally even when a row of the
correlation factor has Euclidean norm zero: on the valid 2-asset generator
`gstZ`, whose factor's first row is `[0, 0]` with row norm 0 (the code's
root of the zero sum of squares is 0), `next` completes normally — no error
is signaled and no fallback branch exists; the shock component is divided by
the zero row norm (an IEEE division by zero in the C++ source). -/
theorem c7_zero_row_norm_silently_divided :
    rowNormSq [(0 : ℚ), 0] = 0 ∧
    sqrtQ (rowNormSq [(0 : ℚ), 0]) = 0 ∧
    (next sqrtQ expQ gstZ.1 gstZ.2).isSome = true :=
  ⟨by norm_num [rowNormSq], by norm_num [rowNormSq, sqrtQ], by decide⟩

/-- C2: on every successful call to `next` — the `(k+1)`-st call for any
`k`, from any state `stk` reached by iterating `next` from construction —
for every step `i` and asset `j`, the stored increments satisfy
`drift[j][i] = dt * drift(t, level[j])` and `diffusion[j][i] = -shock[j] *
sqrt(variance(t, level[j], dt))` at `t = timeGrid[i+1]`,
`dt = timeGrid.dt(i)`, where `level[j]` starts at the model's initial value
and is updated by `level[j] *= exp(drift[j][i] + diffusion[j][i])` after
each step, `shock` is the correlated transform of block `i` of that call's
draw, and the state's grid is still the construction grid. -/
theorem c2_step_equations {K : Type} [Field K] (sq ex : K → K)
    (msqrt : QLMatrix K → QLMatrix K) (procs : List (DiffusionProcess K))
    (drifts : List K) (cov : QLMatrix K) (times : List K) (gen : SG K)
    (gst : MultiPathGenerator K × GenState K) (k : Nat) (stk st' : GenState K)
    (hmk : mkMultiPathGenerator msqrt procs drifts cov times gen = some gst)
    (hiter : nextIterate sq ex gst.1 gst.2 k = some stk)
    (hnext : next sq ex gst.1 stk = some st')
    (i j : Nat) (hi : i < times.length - 1) (hj : j < cov.rows) :
    stk.buf.value.grid = times ∧ nextStepEquations sq ex gst.1 stk st' i j := by
  obtain ⟨hgridp, -, hlensp⟩ := nextIterate_pres hiter
  have hgrid : stk.buf.value.grid = times := by
    rw [hgridp]
    exact (mk_eq_some_elim hmk).2.2.2.2.1
  refine ⟨hgrid, ?_⟩
  simp only [next] at hnext
  rcases Option.bind_eq_some.mp hnext with ⟨asset0, hA, hnext⟩
  rcases Option.bind_eq_some.mp hnext with ⟨p0, hp0, hnext⟩
  rcases Option.bind_eq_some.mp hnext with ⟨res, hres, hnext⟩
  simp only [Option.some.injEq] at hnext
  obtain ⟨-, hjENT⟩ := mk_path_entries hmk
  obtain ⟨pp, hpp, hpplen, -, -⟩ := hjENT 0 (by omega)
  have hlens0 := hlensp 0
  rw [hp0, hpp, Option.map_some', Option.map_some', Option.some.injEq,
    Prod.mk.injEq] at hlens0
  have hsize : p0.size = times.length - 1 := by rw [Path.size, hlens0.1, hpplen]
  have hnum : gst.1.numAssets = cov.rows := (mk_eq_some_elim hmk).2.1
  rw [runSteps] at hres
  have hi' : i < p0.size := by omega
  obtain ⟨ci, d, hci, hstep, htail⟩ :=
    foldlM_option_range_split _ p0.size i hi' _ _ hres
  obtain ⟨b, temp, hb, htemp, hinner⟩ := stepOne_eq_some hstep
  have hjN : j < gst.1.numAssets := by omega
  obtain ⟨cj, dj, hcj, hastep, hjtail⟩ :=
    foldlM_option_range_split _ gst.1.numAssets j hjN _ _ hinner
  obtain ⟨aj, pj, tj, p, haj, hpj, htj, hp, hdrlen, hdflen, hdj⟩ :=
    assetStep_eq_some hastep
  have hpres := innerFold_pres_other (List.range j) hcj j
    (fun x hx => by rw [List.mem_range] at hx; omega)
  rw [hpres.2] at haj
  have hx0 : asset0.get? j = some pj.x0 := by
    obtain ⟨-, hget⟩ := mapM_range_get _ _ _ hA
    rw [hget j hjN, hpj]
    rfl
  have hjt := innerFold_pres_other (List.range' (j + 1) (gst.1.numAssets - j - 1))
    hjtail j (fun x hx => by rw [List.mem_range'_1] at hx; omega)
  have hot := outerFold_pres_col (List.range' (i + 1) (p0.size - i - 1)) htail i
    (fun x hx => by rw [List.mem_range'_1] at hx; omega)
  have hjlencj : j < cj.1.paths.length := get?_some_lt hp
  have hjlencj2 : j < cj.2.length := by
    rw [(innerFold_pres_struct (List.range j) hcj).2.2]
    exact get?_some_lt haj
  -- the entries of the post-step state dj at asset j, step i
  have hdjdrift : dj.1.driftAt j i
      = some (gridDt stk.buf.value.grid i
          * pj.drift (gridAt stk.buf.value.grid (i + 1)) aj) := by
    rw [hdj]
    simp only [MultiPath.driftAt, List.get?_eq_getElem?,
      List.getElem?_set_eq_of_lt _ (by simpa using hjlencj), Option.some_bind]
    rw [List.getElem?_set_eq_of_lt _ (by simpa using hdrlen)]
  have hdjdiff : dj.1.diffusionAt j i
      = some (-tj * sq (pj.variance (gridAt stk.buf.value.grid (i + 1)) aj
          (gridDt stk.buf.value.grid i))) := by
    rw [hdj]
    simp only [MultiPath.diffusionAt, List.get?_eq_getElem?,
      List.getElem?_set_eq_of_lt _ (by simpa using hjlencj), Option.some_bind]
    rw [List.getElem?_set_eq_of_lt _ (by simpa using hdflen)]
  have hdjlvl : dj.2.get? j
      = some (aj * ex (gridDt stk.buf.value.grid i
            * pj.drift (gridAt stk.buf.value.grid (i + 1)) aj
          + -tj * sq (pj.variance (gridAt stk.buf.value.grid (i + 1)) aj
              (gridDt stk.buf.value.grid i)))) := by
    rw [hdj]
    simp only [List.get?_eq_getElem?]
    rw [List.getElem?_set_eq_of_lt _ (by simpa using hjlencj2)]
  -- transport to the end state of the call
  have hddrift : d.1.driftAt j i = dj.1.driftAt j i := by
    simp only [MultiPath.driftAt, hjt.1]
  have hddiff : d.1.diffusionAt j i = dj.1.diffusionAt j i := by
    simp only [MultiPath.diffusionAt, hjt.1]
  have hrun1 : runSteps sq ex gst.1.sqrtCovariance gst.1.diffusionProcs
      gst.1.numAssets stk.buf.value.grid (gst.1.generator.seq stk.count).value
      (stk.buf.value, asset0) (i + 1) = some d := by
    rw [runSteps, foldlM_option_range_succ, hci, Option.some_bind]
    exact hstep
  refine ⟨asset0, pj, ci, aj, b, temp, tj, d, hA, hpj, hx0, hci, haj, ?_, htemp,
    htj, ?_, ?_, hrun1, ?_⟩
  · rw [hnum] at hb ⊢
    exact hb
  · rw [driftEntry, ← hnext]
    show res.1.driftAt j i = _
    rw [(hot j).1, hddrift, hdjdrift]
  · rw [diffusionEntry, ← hnext]
    show res.1.diffusionAt j i = _
    rw [(hot j).2, hddiff, hdjdiff]
  · rw [hjt.2, hdjlvl]

/-- C2 witness: the step equations at step 0, asset 0 of the second call on
the concrete 2-asset generator — the successful call taking `stNext2` (the
state after one prior call) to `stNext2b`. -/
theorem c2_step_equations_witness :
    stNext2.buf.value.grid = ([0, 1] : List ℚ) ∧
    nextStepEquations sqrtQ expQ gst2.1 stNext2 stNext2b 0 0 :=
  c2_step_equations sqrtQ expQ (fun _ => id2) [procU, procU] [0, 0] id2 [0, 1]
    (constSG [1, 1]) gst2 1 stNext2 stNext2b (get_eq_some mk2 (by decide))
    (by rw [nextIterate_one]
        exact get_eq_some (next sqrtQ expQ gst2.1 gst2.2) (by decide))
    (get_eq_some (next sqrtQ expQ gst2.1 stNext2) (by decide)) 0 0
    (by decide) (by decide)

/-- C3: `antithetic` is observably equivalent to one more call to `next`:
it is literally the same function application, and a successful call
performs the same state transition, advancing the random-sequence source by
exactly one draw. -/
theorem c3_antithetic_is_next {K : Type} [Field K] (sq ex : K → K)
    (g : MultiPathGenerator K) (st : GenState K) :
    antithetic sq ex g st = next sq ex g st ∧
    ∀ st', next sq ex g st = some st' → st'.count = st.count + 1 := by
  refine ⟨rfl, ?_⟩
  intro st' h
  simp only [next, Option.bind_eq_some, Option.pure_def, Option.some.injEq] at h
  obtain ⟨asset, -, p0, -, res, -, hst'⟩ := h
  rw [← hst']

/-- C3 witness: the equivalence at the concrete 2-asset instance, where the
call succeeds and the draw counter advances from 0 to 1. -/
theorem c3_antithetic_is_next_witness :
    antithetic sqrtQ expQ gst2.1 gst2.2 = next sqrtQ expQ gst2.1 gst2.2 ∧
    stNext2.count = gst2.2.count + 1 :=
  ⟨(c3_antithetic_is_next sqrtQ expQ gst2.1 gst2.2).1,
   (c3_antithetic_is_next sqrtQ expQ gst2.1 gst2.2).2 stNext2
     (get_eq_some (next sqrtQ expQ gst2.1 gst2.2) (by decide))⟩

/-- C4: construction succeeds exactly when the random source's declared
dimension equals `numAssets * (timeGrid size - 1)`, the drift vector length
equals `numAssets`, the correlation factor's column count equals
`numAssets`, and the time grid has at least 2 points; whenever any of these
fails, construction fails (returns `none`) before any path is produced. -/
theorem c4_constructor_validation {K : Type} [Field K]
    (msqrt : QLMatrix K → QLMatrix K) (procs : List (DiffusionProcess K))
    (drifts : List K) (cov : QLMatrix K) (times : List K) (gen : SG K) :
    (mkMultiPathGenerator msqrt procs drifts cov times gen).isSome = true ↔
      (gen.dimension = cov.rows * (times.length - 1) ∧
       drifts.length = cov.rows ∧
       (msqrt cov).cols = cov.rows ∧
       1 < times.length) :=
  mk_isSome_iff msqrt procs drifts cov times gen

/-- C5 counterexample: the grid `[0, 2, 1]` is not strictly increasing
(`t[2] ≤ t[1]`), dimensions are consistent, and yet construction succeeds —
the constructor performs no monotonicity check on the time grid. -/
theorem c5_counterexample :
    gridAt ([0, 2, 1] : List ℚ) 2 ≤ gridAt ([0, 2, 1] : List ℚ) 1 ∧
    (mkMultiPathGenerator (fun _ => id2) [procU, procU] [0, 0] id2 [0, 2, 1]
      (constSG [1, 1, 1, 1])).isSome = true :=
  ⟨by norm_num [gridAt, gridDt], by decide⟩

/-- C5 amended: constructing with a time grid that is not strictly
increasing does not in itself fail: the constructor performs no
monotonicity check, and success is determined exactly by the four
dimensional validations of C4. -/
theorem c5_amended_no_monotonicity_check {K : Type} [LinearOrderedField K]
    (msqrt : QLMatrix K → QLMatrix K) (procs : List (DiffusionProcess K))
    (drifts : List K) (cov : QLMatrix K) (times : List K) (gen : SG K)
    (hbad : ∃ i, i + 1 < times.length ∧ gridAt times (i + 1) ≤ gridAt times i) :
    (mkMultiPathGenerator msqrt procs drifts cov times gen).isSome = true ↔
      (gen.dimension = cov.rows * (times.length - 1) ∧
       drifts.length = cov.rows ∧
       (msqrt cov).cols = cov.rows ∧
       1 < times.length) :=
  mk_isSome_iff msqrt procs drifts cov times gen

/-- C5 amended witness: at the concrete non-increasing grid `[0, 2, 1]`. -/
theorem c5_amended_no_monotonicity_check_witness :
    (mkMultiPathGenerator (fun _ => id2) [procU, procU] [0, 0] id2 [0, 2, 1]
      (constSG [1, 1, 1, 1])).isSome = true ↔
      ((constSG [1, 1, 1, 1]).dimension = id2.rows * (([0, 2, 1] : List ℚ).length - 1) ∧
       ([0, 0] : List ℚ).length = id2.rows ∧
       id2.cols = id2.rows ∧
       1 < ([0, 2, 1] : List ℚ).length) :=
  c5_amended_no_monotonicity_check (fun _ => id2) [procU, procU] [0, 0] id2 [0, 2, 1]
    (constSG [1, 1, 1, 1]) ⟨1, by norm_num, by norm_num [gridAt]⟩

/-- C6: for a generator constructed with exactly one asset, every call to
`next` hits an out-of-range access (the step transform reads the entries
`[0][1]`, `[1][0]`, `[1][1]` of a 1-by-1 factor and `temp[1]` of a length-1
vector), so under the Option-returning embedding `next` returns `none`:
`next` is not safe for `numAssets = 1`. -/
theorem c6_single_asset_next_fails {K : Type} [Field K]
    (msqrt : QLMatrix K → QLMatrix K) (procs : List (DiffusionProcess K))
    (drifts : List K) (cov : QLMatrix K) (times : List K) (gen : SG K)
    (gst : MultiPathGenerator K × GenState K)
    (hmk : mkMultiPathGenerator msqrt procs drifts cov times gen = some gst)
    (h1 : cov.rows = 1) (sq ex : K → K) :
    next sq ex gst.1 gst.2 = none := by
  obtain ⟨-, -, hS, -, -, -, -, -, -, -, hcols, htimes⟩ := mk_eq_some_elim hmk
  obtain ⟨-, hj⟩ := mk_path_entries hmk
  obtain ⟨p, hp, hplen, -, -⟩ := hj 0 (by omega)
  unfold next
  cases hA : assetInit gst.1.diffusionProcs gst.1.numAssets with
  | none => rfl
  | some asset =>
    rw [Option.some_bind, hp, Option.some_bind]
    have hrun : runSteps sq ex gst.1.sqrtCovariance gst.1.diffusionProcs
        gst.1.numAssets gst.2.buf.value.grid (gst.1.generator.seq gst.2.count).value
        (gst.2.buf.value, asset) p.size = none :=
      runSteps_none_of_cols_lt_two _ _ _ _ _ _ _ _ _
        (by simp only [Path.size]; omega)
        (by rw [hS, hcols, h1]; omega)
    simp [hrun]

/-- C6 witness: the concrete validly constructed 1-asset generator, on which
`next` fails. -/
theorem c6_single_asset_next_fails_witness :
    next sqrtQ expQ gst1.1 gst1.2 = none :=
  c6_single_asset_next_fails (fun _ => id1) [procU] [0] id1 [0, 1] (constSG [1])
    gst1 (get_eq_some mk1 (by decide)) rfl sqrtQ expQ

/-- C8 counterexample: a validly constructed generator with exactly one
asset, on which `next` does not return a state at all (its out-of-range
accesses make the call fail), so "each call returns a state whose arrays
have length numSteps" is false for this validly constructed generator. -/
theorem c8_counterexample :
    id1.rows = 1 ∧ mk1.isSome = true ∧ next sqrtQ expQ gst1.1 gst1.2 = none :=
  ⟨rfl, by decide, Option.isNone_iff_eq_none.mp (by decide)⟩

/-- C8 amended: for every validly constructed generator with at least two
assets, one diffusion model per asset, and a square correlation factor,
every call to `next` (iterated from construction) returns a state whose
per-asset increment arrays all have length exactly `numSteps` = timeGrid
size - 1, and whose weight is exactly the weight the random source reports
for that call's draw. -/
theorem c8_amended_lengths_and_weight {K : Type} [Field K] (sq ex : K → K)
    (msqrt : QLMatrix K → QLMatrix K) (procs : List (DiffusionProcess K))
    (drifts : List K) (cov : QLMatrix K) (times : List K) (gen : SG K)
    (gst : MultiPathGenerator K × GenState K)
    (hmk : mkMultiPathGenerator msqrt procs drifts cov times gen = some gst)
    (h2 : 2 ≤ cov.rows) (hp : procs.length = cov.rows)
    (hr : (msqrt cov).rows = cov.rows) :
    ∀ k, ∃ stk, nextIterate sq ex gst.1 gst.2 k = some stk ∧
      stk.buf.value.paths.length = cov.rows ∧
      (∀ j p, stk.buf.value.paths.get? j = some p →
        p.drift.length = times.length - 1 ∧ p.diffusion.length = times.length - 1) ∧
      stk.count = gst.2.count + k ∧
      (0 < k → stk.buf.weight
        = (gst.1.generator.seq (gst.2.count + k - 1)).weight) := by
  obtain ⟨hproc, hnum, hS, hgen, -, -, -, -, hdim, -, hcols, -⟩ := mk_eq_some_elim hmk
  have hwf0 : stateWF cov.rows (times.length - 1) gst.2 := mk_stateWF hmk
  intro k
  induction k with
  | zero =>
    exact ⟨gst.2, rfl, hwf0.1, hwf0.2, by omega, fun h => absurd h (by omega)⟩
  | succ m ih =>
    obtain ⟨stm, hiter, hlen, hwfm, hcnt, -⟩ := ih
    obtain ⟨stm', hnextm, hwf', hcnt', hwt'⟩ :=
      next_total sq ex gst.1 stm (times.length - 1)
        (by omega)
        (by rw [hproc, hp, hnum])
        (by rw [hS, hnum]; exact hr)
        (by rw [hS, hnum]; exact hcols)
        (by rw [hgen, hnum]; exact hdim)
        (by rw [hnum]; exact ⟨hlen, hwfm⟩)
    refine ⟨stm', ?_, hnum ▸ hwf'.1, hwf'.2, by omega, ?_⟩
    · rw [nextIterate_succ_right, hiter, Option.some_bind]
      exact hnextm
    · intro _
      rw [hwt', hcnt]
      congr 2

/-- C8 amended witness: the concrete 2-asset generator, iterated for two
calls. -/
theorem c8_amended_lengths_and_weight_witness :
    ∃ stk, nextIterate sqrtQ expQ gst2.1 gst2.2 2 = some stk ∧
      stk.buf.value.paths.length = id2.rows ∧
      (∀ j p, stk.buf.value.paths.get? j = some p →
        p.drift.length = ([0, 1] : List ℚ).length - 1
          ∧ p.diffusion.length = ([0, 1] : List ℚ).length - 1) ∧
      stk.count = gst2.2.count + 2 ∧
      (0 < 2 → stk.buf.weight
        = (gst2.1.generator.seq (gst2.2.count + 2 - 1)).weight) :=
  c8_amended_lengths_and_weight sqrtQ expQ (fun _ => id2) [procU, procU] [0, 0]
    id2 [0, 1] (constSG [1, 1]) gst2 (get_eq_some mk2 (by decide))
    (by decide) (by decide) rfl 2

/-- C9: `next` is deterministic in its inputs: two generators constructed
from identical inputs (same models, drifts, covariance, grid and identically
seeded source) produce identical sequences of path samples, call by call. -/
theorem c9_deterministic {K : Type} [Field K] (sq ex : K → K)
    (msqrt : QLMatrix K → QLMatrix K) (procs : List (DiffusionProcess K))
    (drifts : List K) (cov : QLMatrix K) (times : List K) (gen : SG K)
    (g1 g2 : MultiPathGenerator K) (s1 s2 : GenState K)
    (h1 : mkMultiPathGenerator msqrt procs drifts cov times gen = some (g1, s1))
    (h2 : mkMultiPathGenerator msqrt procs drifts cov times gen = some (g2, s2)) :
    ∀ k, runPaths sq ex g1 s1 k = runPaths sq ex g2 s2 k := by
  rw [h1, Option.some.injEq, Prod.mk.injEq] at h2
  obtain ⟨hg, hs⟩ := h2
  subst hg
  subst hs
  intro k
  rfl

/-- C9 witness: the concrete 2-asset instance compared with itself over
three calls. -/
theorem c9_deterministic_witness :
    runPaths sqrtQ expQ gst2.1 gst2.2 3 = runPaths sqrtQ expQ gst2.1 gst2.2 3 :=
  c9_deterministic sqrtQ expQ (fun _ => id2) [procU, procU] [0, 0] id2 [0, 1]
    (constSG [1, 1]) gst2.1 gst2.1 gst2.2 gst2.2
    (get_eq_some mk2 (by decide)) (get_eq_some mk2 (by decide)) 3

/-- C10: on successful construction the generator has computed the
correlation factor (stored once), and every asset's drift increment array is
prefilled with `drifts[j] * dt(i)` at every one of the `numSteps` steps. -/
theorem c10_prefill {K : Type} [Field K]
    (msqrt : QLMatrix K → QLMatrix K) (procs : List (DiffusionProcess K))
    (drifts : List K) (cov : QLMatrix K) (times : List K) (gen : SG K)
    (gst : MultiPathGenerator K × GenState K)
    (hmk : mkMultiPathGenerator msqrt procs drifts cov times gen = some gst) :
    gst.1.sqrtCovariance = msqrt cov ∧
    gst.2.buf.value.paths.length = cov.rows ∧
    ∀ j, j < cov.rows → ∀ i, i < times.length - 1 →
      driftEntry gst.2 j i = some (drifts.getD j 0 * gridDt times i) := by
  obtain ⟨-, -, hS, -⟩ := mk_eq_some_elim hmk
  obtain ⟨hlen, hj⟩ := mk_path_entries hmk
  refine ⟨hS, hlen, ?_⟩
  intro j hjlt i hi
  obtain ⟨p, hp, -, -, hdr⟩ := hj j hjlt
  rw [driftEntry, MultiPath.driftAt, hp, Option.some_bind]
  exact hdr i hi

/-- C10 witness: the prefilled drift increment of asset 0 at step 0 on the
concrete 2-asset instance. -/
theorem c10_prefill_witness :
    driftEntry gst2.2 0 0 = some ((([0, 0] : List ℚ).getD 0 0) * gridDt [0, 1] 0) :=
  (c10_prefill (fun _ => id2) [procU, procU] [0, 0] id2 [0, 1] (constSG [1, 1])
    gst2 (get_eq_some mk2 (by decide))).2.2 0 (by decide) 0 (by decide)

end QLMC
